import Mathlib

/-!
Verification development for the response-decoding subsystem of the
multiwoz-mdrg repository (source files `src/models/model.py`,
`src/utils/util.py`, `src/test.py`).

The embedding is per batch element.  A decoder step is an abstract function
`step : Nat → H → H × List ℚ` taking the previous token id and the hidden
state and returning the new hidden state together with the vector of
log-probabilities over the vocabulary (the `List ℚ` is indexed by token id).
This mirrors `self.decoder(decoder_input, decoder_hidden, encoder_output,
mask_tensor_idx)` inside `Model.decode`: for a fixed turn the encoder outputs
and the mask are fixed, so the decoder is a function of token and hidden
state only.  Log-probabilities are modelled by exact rationals; floating
point rounding is outside the spec's scope ("numeric precision of the
underlying linear-algebra kernels" is declared a non-goal).
-/

namespace MDRG

/-- Reserved token ids, `utils/util.py` lines 16-19. -/
def SOS_token : Nat := 0

/-- Reserved id `EOS_token = 1`, `utils/util.py` line 17. -/
def EOS_token : Nat := 1

/-- Reserved id `UNK_token = 2`, `utils/util.py` line 18. -/
def UNK_token : Nat := 2

/-- Reserved id `PAD_token = 3`, `utils/util.py` line 19. -/
def PAD_token : Nat := 3

/-- Ranking used to model `torch.topk`: larger value first; on ties the lower
index comes first (a fixed deterministic tie-break, the spec leaves the
tie-break open). -/
def vocabRank (a b : Nat × ℚ) : Prop := b.2 < a.2 ∨ (a.2 = b.2 ∧ a.1 ≤ b.1)

instance : DecidableRel vocabRank := fun a b => by
  unfold vocabRank; infer_instance

/-- Model of `torch.topk(xs, k)` on a vector of log-probabilities: the `k`
best `(token id, value)` pairs in descending value order. -/
def topk (k : Nat) (xs : List ℚ) : List (Nat × ℚ) :=
  (xs.enum.insertionSort vocabRank).take k

/-- Class `BeamSearchNode` (`models/model.py` lines 32-38): hidden state, optional
parent, token id, cumulative log-probability, length. -/
inductive BeamSearchNode (H : Type) : Type where
  | mk (h : H) (prevNode : Option (BeamSearchNode H)) (wordid : Nat)
       (logp : ℚ) (leng : Nat)

/-- Field `h`. -/
def BeamSearchNode.h {H : Type} : BeamSearchNode H → H
  | .mk h _ _ _ _ => h

/-- Field `prevNode`. -/
def BeamSearchNode.prevNode {H : Type} : BeamSearchNode H → Option (BeamSearchNode H)
  | .mk _ p _ _ _ => p

/-- Field `wordid`. -/
def BeamSearchNode.wordid {H : Type} : BeamSearchNode H → Nat
  | .mk _ _ w _ _ => w

/-- Field `logp`. -/
def BeamSearchNode.logp {H : Type} : BeamSearchNode H → ℚ
  | .mk _ _ _ l _ => l

/-- Field `leng`. -/
def BeamSearchNode.leng {H : Type} : BeamSearchNode H → Nat
  | .mk _ _ _ _ l => l

/-- Method `BeamSearchNode.eval` (`models/model.py` lines 40-44).  The four
arguments model `repeatPenalty`, `tokenReward`, `scoreTable` and the `alpha`
argument; `Model.decode` passes `None` for all four.  The body sets
`reward = 0` and reassigns `alpha = 1.0`, so the hooks are dead. -/
def BeamSearchNode.eval {H : Type} (n : BeamSearchNode H)
    (repeatPenalty tokenReward scoreTable alphaArg : Option ℚ) : ℚ :=
  let reward : ℚ := 0
  let alpha : ℚ := 1
  n.logp / ((n.leng : ℚ) - 1 + 1 / 1000000) + alpha * reward

/-- The queue priority used by `Model.decode`: `-node.eval(None, None, None,
None)` (lines 641 and 677). -/
def beamScore {H : Type} (n : BeamSearchNode H) : ℚ :=
  -(n.eval none none none none)

/-- Model of `queue.PriorityQueue.get`: remove the entry with the smallest
score; among equal scores the earliest inserted entry is taken (deterministic
tie-break; the source relies on tuple comparison, whose tie behaviour the
spec leaves open). -/
def pqGet {H : Type} :
    List (ℚ × BeamSearchNode H) →
      Option ((ℚ × BeamSearchNode H) × List (ℚ × BeamSearchNode H))
  | [] => none
  | x :: xs =>
    match pqGet xs with
    | none => some (x, [])
    | some (y, rest) => if x.1 ≤ y.1 then some (x, xs) else some (y, x :: rest)

/-- The value `self.topk = 1`, hardcoded in `Model.decode` line 632. -/
def beam_topk : Nat := 1

/-- The count `number_required = min((self.topk + 1), self.topk - len(endnodes))`,
`Model.decode` line 634, evaluated once with `endnodes = []`. -/
def number_required : Nat := min (beam_topk + 1) (beam_topk - 0)

/-- The expansion step of `Model.decode` lines 667-678: run the decoder once
on the popped node's token and hidden state, take the top `width` tokens,
and build the `nextnodes` list of `(score, child)` pairs, where each child
records the new hidden state, the popped node as parent, the chosen token,
the accumulated log-probability and the incremented length, and its score is
`-node.eval(None, None, None, None)`. -/
def beamExpand {H : Type} (step : Nat → H → H × List ℚ) (width : Nat)
    (n : BeamSearchNode H) : List (ℚ × BeamSearchNode H) :=
  (topk width (step n.wordid n.h).2).map fun tv =>
    (beamScore (BeamSearchNode.mk (step n.wordid n.h).1 (some n) tv.1
        (n.logp + tv.2) (n.leng + 1)),
     BeamSearchNode.mk (step n.wordid n.h).1 (some n) tv.1
        (n.logp + tv.2) (n.leng + 1))

/-- The `while True` loop of `Model.decode` (lines 645-686), one dialogue
turn, one batch element.  Arguments after `width` (the configured
`args.beam_width`): remaining fuel (the loop is bounded by the 2000-node cap,
fuel only makes the recursion structural), the priority queue `nodes`, the
list `endnodes`, and the counter `qsize`.  Returns `none` if the fuel runs
out or if `nodes.get()` is called on an empty queue (Python would block
forever there); otherwise `some (endnodes, nodes, qsize)` at loop exit.
Every iteration first checks `if qsize > 2000: break`, then pops the
best-scored node; a popped node whose token is `EOS_token` and whose parent
is not `None` is appended to `endnodes`, breaking once `number_required`
end nodes exist; otherwise the node is expanded and its `nextnodes` are put
on the queue, `qsize` growing by their number. -/
def beamLoop {H : Type} (step : Nat → H → H × List ℚ) (width : Nat) :
    Nat → List (ℚ × BeamSearchNode H) → List (ℚ × BeamSearchNode H) → Nat →
      Option (List (ℚ × BeamSearchNode H) × List (ℚ × BeamSearchNode H) × Nat)
  | 0, nodes, endnodes, qsize =>
    if 2000 < qsize then some (endnodes, nodes, qsize) else none
  | fuel + 1, nodes, endnodes, qsize =>
    if 2000 < qsize then some (endnodes, nodes, qsize)
    else
      match pqGet nodes with
      | none => none
      | some ((score, n), rest) =>
        if n.wordid = EOS_token ∧ n.prevNode.isSome = true then
          if number_required ≤ (endnodes ++ [(score, n)]).length then
            some (endnodes ++ [(score, n)], rest, qsize)
          else
            beamLoop step width fuel rest (endnodes ++ [(score, n)]) qsize
        else
          beamLoop step width fuel (rest ++ beamExpand step width n) endnodes
            (qsize + (beamExpand step width n).length)

/-- Fuel that always suffices: the loop performs at most 2001 expanding
iterations before `qsize` passes the 2000-node cap. -/
def beamFuel : Nat := 2002

/-- The backtrace of `Model.decode` lines 694-701: token ids from the root
to the node (the source builds the reversed list and reverses it). -/
def backtraceTokens {H : Type} : BeamSearchNode H → List Nat
  | .mk _ none w _ _ => [w]
  | .mk _ (some p) w _ _ => backtraceTokens p ++ [w]

/-- The start node built at `Model.decode` line 639: the turn's initial
hidden state, no parent, the start-of-sequence token, zero log-probability,
length 1. -/
def initNode {H : Type} (h0 : H) : BeamSearchNode H :=
  .mk h0 none SOS_token 0 1

/-- The initial priority queue of `Model.decode` lines 640-642: the start
node with its score. -/
def initQueue {H : Type} (h0 : H) : List (ℚ × BeamSearchNode H) :=
  [(beamScore (initNode h0), initNode h0)]

/-- Function `Model.decode` for one batch element (lines 631-704), producing the token
ids of `utterances[0]`: run the beam loop from the start node; if no
hypothesis completed, pop one best-effort node from the remaining queue
(lines 689-690, `self.topk = 1` node); finally take the minimum-score end
node (`sorted(endnodes, key=itemgetter(0))[0]`, which is the first entry of
minimal score) and backtrace it. -/
def beamDecodeTokens {H : Type} (step : Nat → H → H × List ℚ) (width : Nat)
    (h0 : H) : Option (List Nat) :=
  match beamLoop step width beamFuel (initQueue h0) [] 1 with
  | none => none
  | some (endnodes, nodes, _) =>
    if endnodes.length = 0 then
      match pqGet nodes with
      | none => none
      | some (p, _) => some (backtraceTokens p.2)
    else
      match pqGet endnodes with
      | none => none
      | some (p, _) => some (backtraceTokens p.2)

/-- The sentence finally emitted for the element, at token level:
`' '.join(decoded_sentence[1:-1])` (line 707) drops the first token (SOS)
and the last token of the backtraced utterance. -/
def beamDecodeSentence {H : Type} (step : Nat → H → H × List ℚ) (width : Nat)
    (h0 : H) : Option (List Nat) :=
  (beamDecodeTokens step width h0).map fun u => (u.drop 1).dropLast

/-- One greedy step for one batch element: `topv, topi =
decoder_output.data.topk(1)` (`Model.greedy_decode` line 727), the new input
is the arg-max token. -/
def greedyStep {H : Type} (step : Nat → H → H × List ℚ) (input : Nat) (h : H) :
    Nat × H :=
  let sh := step input h
  (((topk 1 sh.2).headD (0, 0)).1, sh.1)

/-- The greedy generation loop of `Model.greedy_decode` (lines 724-731), one
batch element: `max_len` steps, starting from `SOS_token`, recording the
arg-max token of every step (`decoded_words`). -/
def greedyTokens {H : Type} (step : Nat → H → H × List ℚ) :
    Nat → Nat → H → List Nat
  | 0, _, _ => []
  | t + 1, input, h =>
    let s := greedyStep step input h
    s.1 :: greedyTokens step t s.1 s.2

/-- The `decoded_words` row for one batch element: greedy decoding for `max_len`
steps from the start token. -/
def greedyDecodeTokens {H : Type} (step : Nat → H → H × List ℚ)
    (max_len : Nat) (h0 : H) : List Nat :=
  greedyTokens step max_len SOS_token h0

/-- Sentence assembly of `Model.greedy_decode` (lines 733-739) at token
level: keep tokens up to (excluding) the first `EOS_token`. -/
def greedySentence {H : Type} (step : Nat → H → H × List ℚ)
    (max_len : Nat) (h0 : H) : List Nat :=
  (greedyDecodeTokens step max_len h0).takeWhile (fun t => ¬ t = EOS_token)

/-! ## Vocabulary lookup (`Model.output_index2word` / `Model.output_word2index`)

The Python dictionaries are modelled as association lists with string keys
(the id-to-word table is keyed by the *string* form of the id, as in the
JSON dictionaries and in `self.output_index2word(str(ind.item()))`). -/

/-- Lookup `Model.output_index2word` (`models/model.py` lines 771-775): return the
mapped word, otherwise `raise UserWarning('We are using UNK')`.  The raise is
modelled as `Except.error`. -/
def output_index2word (output_lang_index2word : List (String × String))
    (index : String) : Except String String :=
  match output_lang_index2word.lookup index with
  | some w => Except.ok w
  | none => Except.error "We are using UNK"

/-- Lookup `Model.output_word2index` (`models/model.py` lines 783-787): return the
mapped id, otherwise return `2` (the reserved unknown id) without any
error. -/
def output_word2index (output_lang_word2index : List (String × Nat))
    (word : String) : Nat :=
  match output_lang_word2index.lookup word with
  | some i => i
  | none => 2

/-- The word-mapping step of `Model.decode` line 705: every token id of the
utterance is looked up through `output_index2word`; a raise from the lookup
propagates and aborts the whole turn. -/
def beamSentenceWords (table : List (String × String)) (tokens : List Nat) :
    Except String (List String) :=
  tokens.mapM fun ind => output_index2word table (toString ind)

/-! ## The MoE gating layer (`MoESeqAttnDecoderRNN`)

Modelled per batch element.  A vector (one row of a `[B, V]` or `[B, H]`
tensor) is a `List ℚ`.  The composite of the learned gate projection
`self.moe_fc` followed by `F.log_softmax(·, dim=1)` (lines 317-318) is an
abstract parameter `gateLS` consuming the list of decoder output vectors
(the concatenation `torch.cat(decoder_output_list, -1)` of line 315 carries
the same information); its output is one gate value per (chair|expert).
Log-softmax outputs are logarithms of probabilities in `(0, 1)`, hence
strictly negative, which is the only structural fact the theorems use. -/

/-- Elementwise vector sum. -/
def vsum (v w : List ℚ) : List ℚ := List.zipWith (· + ·) v w

/-- Scalar multiple of a vector. -/
def vsmul (c : ℚ) (v : List ℚ) : List ℚ := v.map (fun x => c * x)

/-- Model of `torch.stack(vs).mul(ws.expand(...)).sum(0)`: the weighted sum
`Σ_i ws_i • vs_i` (lines 334-336 for outputs, 340-342 for hidden states). -/
def weightedSum : List ℚ → List (List ℚ) → List ℚ
  | [w], [v] => vsmul w v
  | w :: ws, v :: vs => vsum (vsmul w v) (weightedSum ws vs)
  | _, _ => []

/-- The normalization of `moe_layer` lines 328-330: `norm_weights =
torch.sum(moe_weights, dim=1)` then `moe_weights = torch.div(moe_weights,
norm_weights)`.  The divisor is the raw sum — there is no epsilon guard in
the source (`Model.epsln = 10E-5` is defined at line 456 but never used). -/
def moeNormalize (w : List ℚ) : List ℚ := w.map (fun x => x / w.sum)

/-- The same normalization with `torch.div`'s zero denominator made
explicit: `none` exactly when the division would be a division by zero
(torch produces `inf`/`nan` there rather than raising). -/
def moeNormalizeChecked (w : List ℚ) : Option (List ℚ) :=
  if w.sum = 0 then none else some (moeNormalize w)

/-- Modelled from the spec: the spec's §4.3 step 3 asks to "normalize
weights so they sum to 1 per batch element (guard against division by a
near-zero sum with an epsilon)"; this definition divides by `sum + ε`.  It
exists only to be compared with `moeNormalize`, the normalization the source
actually performs; the source has no such guard. -/
def moeNormalizeSpec (eps : ℚ) (w : List ℚ) : List ℚ :=
  w.map (fun x => x / (w.sum + eps))

/-- The per-batch-element MoE weights of `moe_layer` lines 317-330: gate
values (`moe_fc` + `log_softmax`, abstracted into `gateLS`) normalized by
their sum. -/
def moeWeights (gateLS : List (List ℚ) → List ℚ)
    (decoder_output_list : List (List ℚ)) : List ℚ :=
  moeNormalize (gateLS decoder_output_list)

/-- Function `MoESeqAttnDecoderRNN.moe_layer` (lines 309-344), one batch element.
`decoder_output_list` holds the chair output first, then the expert outputs;
`decoder_hidden_list` likewise holds the (h, c) hidden pairs.
`embedded_list` is accepted and ignored, as in the source. -/
def moe_layer (gateLS : List (List ℚ) → List ℚ)
    (decoder_output_list : List (List ℚ))
    (decoder_hidden_list : List (List ℚ × List ℚ))
    (embedded_list : List (List ℚ)) (gamma_expert : ℚ) :
    List ℚ × (List ℚ × List ℚ) :=
  let chair_dec_out := decoder_output_list.headD []
  let chair_dec_hid := decoder_hidden_list.headD ([], [])
  let ws := moeWeights gateLS decoder_output_list
  -- output = stack(outputs).mul(weights).sum(0), then γ-interpolation (338)
  let mixed_output := weightedSum ws decoder_output_list
  let output := vsum (vsmul gamma_expert mixed_output)
                     (vsmul (1 - gamma_expert) chair_dec_out)
  -- hidden: the same weighted sum on each tuple component (340-343)
  let mixed_hidden0 := weightedSum ws (decoder_hidden_list.map Prod.fst)
  let mixed_hidden1 := weightedSum ws (decoder_hidden_list.map Prod.snd)
  let hidden := (vsum (vsmul gamma_expert mixed_hidden0)
                      (vsmul (1 - gamma_expert) chair_dec_hid.1),
                 vsum (vsmul gamma_expert mixed_hidden1)
                      (vsmul (1 - gamma_expert) chair_dec_hid.2))
  (output, hidden)

/-- The result of one `expert_forward` call: log-probability output, hidden
pair, embedded input (`MoESeqAttnDecoderRNN.expert_forward` returns all
three). -/
structure EFOut where
  output : List ℚ
  hidden : List ℚ × List ℚ
  embedded : List ℚ

/-- Model of `tensor.masked_fill_(mask, value)` for one batch element whose mask bit
is `m`: if the element is masked, every entry is overwritten with the
value. -/
def maskedFillVec (m : Bool) (value : ℚ) (v : List ℚ) : List ℚ :=
  if m then v.map (fun _ => value) else v

/-- Function `MoESeqAttnDecoderRNN.tokenMoE` (lines 346-375), one batch element, with
`expert_forward` abstracted into a function of (input token, hidden pair,
encoder outputs).  The chair runs on the unmasked inputs; for every intent
mask the expert runs on a view where the masked element's input token,
hidden state and encoder outputs are overwritten with `PAD_token`; finally
`moe_layer` combines the collected lists with `gamma_expert`
(`self.args.gamma_expert`). -/
def tokenMoE (expert_forward : Nat → List ℚ × List ℚ → List ℚ → EFOut)
    (gateLS : List (List ℚ) → List ℚ) (gamma_expert : ℚ)
    (decoder_input : Nat) (decoder_hidden : List ℚ × List ℚ)
    (encoder_outputs : List ℚ) (mask_tensor : List Bool) :
    List ℚ × (List ℚ × List ℚ) :=
  let c := expert_forward decoder_input decoder_hidden encoder_outputs
  let lists := mask_tensor.foldl
    (fun (acc : List (List ℚ) × List (List ℚ × List ℚ) × List (List ℚ)) mask =>
      let decoder_input_k := if mask then PAD_token else decoder_input
      let decoder_hidden_k := (maskedFillVec mask (PAD_token : ℚ) decoder_hidden.1,
                               maskedFillVec mask (PAD_token : ℚ) decoder_hidden.2)
      let encoder_outputs_k := maskedFillVec mask (PAD_token : ℚ) encoder_outputs
      let k := expert_forward decoder_input_k decoder_hidden_k encoder_outputs_k
      (acc.1 ++ [k.output], acc.2.1 ++ [k.hidden], acc.2.2 ++ [k.embedded]))
    ([c.output], [c.hidden], [c.embedded])
  moe_layer gateLS lists.1 lists.2.1 lists.2.2 gamma_expert

/-- Function `MoESeqAttnDecoderRNN.forward` (lines 377-383): with a mask tensor run
`tokenMoE`, without one run the plain (chair) `expert_forward` and return its
output and hidden state directly. -/
def moeForward (expert_forward : Nat → List ℚ × List ℚ → List ℚ → EFOut)
    (gateLS : List (List ℚ) → List ℚ) (gamma_expert : ℚ)
    (input : Nat) (hidden : List ℚ × List ℚ) (encoder_outputs : List ℚ)
    (mask_tensor : Option (List Bool)) : List ℚ × (List ℚ × List ℚ) :=
  match mask_tensor with
  | some m => tokenMoE expert_forward gateLS gamma_expert input hidden encoder_outputs m
  | none =>
    let r := expert_forward input hidden encoder_outputs
    (r.output, r.hidden)

/-! ## A store model for the in-place tensor operations of `tokenMoE`

To state the frame property (the caller's tensors are never mutated) the
relevant fragment of `tokenMoE` is modelled against an explicit store of
tensors: references are indices, `clone` allocates a fresh cell holding a
copy, and `masked_fill_` writes in place to the cell it is applied to. -/

/-- A (flattened) tensor. -/
abbrev Tensor : Type := List ℚ

/-- A store of tensors; references are list indices. -/
abbrev Store : Type := List Tensor

/-- Read the tensor behind a reference. -/
def readT (s : Store) (r : Nat) : Tensor := s.getD r []

/-- Write a tensor in place. -/
def writeT (s : Store) (r : Nat) (t : Tensor) : Store := s.set r t

/-- Model of `x.clone()`: allocate a fresh cell holding a copy of `x`. -/
def cloneT (s : Store) (r : Nat) : Store × Nat := (s ++ [readT s r], s.length)

/-- Model of `x.masked_fill_(mask, value)`: in-place overwrite of the cell `r` (the
whole element view, its mask bit being `m`). -/
def maskedFillT (s : Store) (r : Nat) (m : Bool) (value : ℚ) : Store :=
  writeT s r (maskedFillVec m value (readT s r))

/-- Model of `x.clone().masked_fill_(mask, PAD_token)` — the masked view built by
`tokenMoE` (lines 355-357): clone, then fill the clone in place.  Returns
the updated store and the reference of the view. -/
def maskedView (s : Store) (r : Nat) (m : Bool) : Store × Nat :=
  let c := cloneT s r
  (maskedFillT c.1 c.2 m (PAD_token : ℚ), c.2)

/-- The view-building loop of `tokenMoE` (lines 354-357) against the store:
for every intent mask, build the four masked views (decoder input, both
components of the hidden tuple, encoder outputs), collecting their
references.  The caller's tensors are the references `ri`, `rh0`, `rh1`,
`re`. -/
def tokenMoEViews (ri rh0 rh1 re : Nat) :
    List Bool → Store → Store × List (Nat × Nat × Nat × Nat)
  | [], s => (s, [])
  | mask :: masks, s =>
    let vi := maskedView s ri mask
    let vh0 := maskedView vi.1 rh0 mask
    let vh1 := maskedView vh0.1 rh1 mask
    let ve := maskedView vh1.1 re mask
    let rec0 := tokenMoEViews ri rh0 rh1 re masks ve.1
    (rec0.1, (vi.2, vh0.2, vh1.2, ve.2) :: rec0.2)

/-! ## Helper lemmas -/

theorem sum_map_div (w : List ℚ) (s : ℚ) :
    (w.map (fun x => x / s)).sum = w.sum / s := by
  induction w with
  | nil => simp
  | cons x xs ih => simp [ih, add_div]

theorem sum_neg_of_all_neg (w : List ℚ) (hne : w ≠ []) (hneg : ∀ x ∈ w, x < 0) :
    w.sum < 0 := by
  induction w with
  | nil => exact absurd rfl hne
  | cons x xs ih =>
    rcases List.eq_nil_or_concat xs with h | _
    · subst h
      simpa using hneg x (by simp)
    · cases hxs : xs with
      | nil =>
        subst hxs
        simpa using hneg x (by simp)
      | cons y ys =>
        have h1 : x < 0 := hneg x (by simp)
        have h2 : xs.sum < 0 := by
          subst hxs
          exact ih (by simp) (fun z hz => hneg z (List.mem_cons_of_mem _ hz))
        subst hxs
        simpa using add_neg h1 h2

/-! ## Claims -/

/-- C2 (counterexample): the claim says a missing mapping is signalled *and*
decoding substitutes the reserved unknown id 2 in both directions.  On a
concrete missing id, `output_index2word` raises (`UserWarning('We are using
UNK')`, modelled as `Except.error`) with no substitution, so the word-mapping
step of decoding fails the whole turn; and on a concrete missing word,
`output_word2index` returns 2 without signalling anything. -/
theorem C2_lookup_counterexample :
    output_index2word [("0", "<sos>")] "5" = Except.error "We are using UNK" ∧
    beamSentenceWords [("0", "x"), ("1", "y")] [0, 5, 1] =
      Except.error "We are using UNK" ∧
    output_word2index [("hello", 4)] "bye" = 2 :=
  ⟨rfl, rfl, rfl⟩

/-- C2 (amended): for every token id (string form) with no mapping,
`output_index2word` raises `UserWarning('We are using UNK')` — so a missing
id aborts the turn rather than being substituted — while for every word with
no mapping `output_word2index` silently returns the reserved unknown id 2
without signalling any error. -/
theorem C2_lookup_amended (t1 : List (String × String))
    (t2 : List (String × Nat)) (idx w : String)
    (h1 : t1.lookup idx = none) (h2 : t2.lookup w = none) :
    output_index2word t1 idx = Except.error "We are using UNK" ∧
    output_word2index t2 w = 2 := by
  constructor
  · unfold output_index2word
    rw [h1]
  · unfold output_word2index
    rw [h2]

/-- Witness for `C2_lookup_amended` at a concrete table and keys. -/
theorem C2_lookup_amended_witness :
    output_index2word [("0", "<sos>")] "7" = Except.error "We are using UNK" ∧
    output_word2index [("hi", 4)] "yo" = 2 :=
  C2_lookup_amended [("0", "<sos>")] [("hi", 4)] "7" "yo" (by decide) (by decide)

/-- C3 (counterexample): the claim says the normalization divides by the sum
*guarded with an epsilon*.  On gate weights whose sum `-1/50000` is
near zero, the source normalization (`moeNormalize`) divides by exactly that
raw sum (yielding `[1/2, 1/2]`), which differs from the epsilon-guarded
division described by the spec (`moeNormalizeSpec`, with ε taken as the
repository's own `Model.epsln = 10E-5`, defined at line 456 but never
used). -/
theorem C3_normalize_counterexample :
    moeNormalize [-(1 : ℚ)/100000, -1/100000] = [1/2, 1/2] ∧
    moeNormalize [-(1 : ℚ)/100000, -1/100000] ≠
      moeNormalizeSpec (1/10000) [-(1 : ℚ)/100000, -1/100000] := by
  constructor
  · with_unfolding_all decide
  · with_unfolding_all decide

/-- C3 (amended): the normalization of `moe_layer` divides the gate weights
by their raw sum with no epsilon guard and raises nothing; it is nonetheless
well defined for every input whose gate values are log-softmax outputs
(strictly negative), because their sum is then strictly negative, so no
division by zero occurs. -/
theorem C3_normalize_no_eps_guard (w : List ℚ) (hne : w ≠ [])
    (hneg : ∀ x ∈ w, x < 0) :
    w.sum ≠ 0 ∧ moeNormalizeChecked w = some (moeNormalize w) := by
  have hs : w.sum < 0 := sum_neg_of_all_neg w hne hneg
  have hs0 : w.sum ≠ 0 := ne_of_lt hs
  exact ⟨hs0, by simp [moeNormalizeChecked, hs0]⟩

/-- Witness for `C3_normalize_no_eps_guard` at concrete gate weights. -/
theorem C3_normalize_no_eps_guard_witness :
    ([-(1 : ℚ), -2].sum ≠ 0) ∧
    moeNormalizeChecked [-(1 : ℚ), -2] = some (moeNormalize [-(1 : ℚ), -2]) :=
  C3_normalize_no_eps_guard [-(1 : ℚ), -2] (by decide)
    (by intro x hx; fin_cases hx <;> norm_num)

/-- C6 (confirmed): for any number of experts `k ≥ 1` (so `k + 1` gate
entries) and any gate values that are log-softmax outputs (strictly
negative), the normalized MoE weights of `moe_layer` form a genuine
distribution per batch element: they are positive and sum to exactly 1
(hence within `1e-5`).  The weights are recomputed by `moe_layer` from the
current step's decoder outputs on every call — `moeWeights` is a function of
the step's `decoder_output_list` alone, nothing is cached. -/
theorem C6_weights_sum_one (gateLS : List (List ℚ) → List ℚ)
    (outs : List (List ℚ)) (k : Nat)
    (hlen : (gateLS outs).length = k + 1) (hk : 1 ≤ k)
    (hneg : ∀ x ∈ gateLS outs, x < 0) :
    (moeWeights gateLS outs).sum = 1 ∧ ∀ x ∈ moeWeights gateLS outs, 0 < x := by
  have hne : gateLS outs ≠ [] := by
    intro h
    rw [h] at hlen
    simp at hlen
  have hs : (gateLS outs).sum < 0 := sum_neg_of_all_neg _ hne hneg
  constructor
  · rw [moeWeights, moeNormalize, sum_map_div]
    exact div_self (ne_of_lt hs)
  · intro x hx
    rw [moeWeights, moeNormalize] at hx
    rcases List.mem_map.1 hx with ⟨y, hy, rfl⟩
    exact div_pos_of_neg_of_neg (hneg y hy) hs

/-- Witness for `C6_weights_sum_one` with one expert and concrete gate
values. -/
theorem C6_weights_sum_one_witness :
    (moeWeights (fun _ => [-(1 : ℚ)/2, -3/2]) []).sum = 1 ∧
    ∀ x ∈ moeWeights (fun _ => [-(1 : ℚ)/2, -3/2]) [], 0 < x :=
  C6_weights_sum_one (fun _ => [-(1 : ℚ)/2, -3/2]) [] 1 (by decide) (by decide)
    (by intro x hx; fin_cases hx <;> norm_num)

/-- C7 (confirmed): when no intent mask is supplied,
`MoESeqAttnDecoderRNN.forward` bypasses the gating layer entirely: its
result is exactly the output distribution and hidden state of the chair
(`expert_forward` on the unmasked inputs), for all inputs. -/
theorem C7_forward_none_bypasses_gate
    (expert_forward : Nat → List ℚ × List ℚ → List ℚ → EFOut)
    (gateLS : List (List ℚ) → List ℚ) (gamma_expert : ℚ) (input : Nat)
    (hidden : List ℚ × List ℚ) (encoder_outputs : List ℚ) :
    moeForward expert_forward gateLS gamma_expert input hidden
        encoder_outputs none =
      ((expert_forward input hidden encoder_outputs).output,
       (expert_forward input hidden encoder_outputs).hidden) := rfl

/-- C8 (amended): the gating layer obeys the interpolation equations
`final_output = γ·mixed_output + (1-γ)·chair_output` and `final_hidden =
γ·mixed_hidden + (1-γ)·chair_hidden` (componentwise on the hidden pair),
where `mixed` is the MoE-weighted sum over chair and experts; but with γ = 1
the result is that soft mixture over *all* passes (the gate weights are not
restricted by the intent masks — the availability-mask weighting at lines
321-326 is commented out), so a single-intent element's output generally
differs from that expert's standalone output. -/
theorem C8_interpolation (gateLS : List (List ℚ) → List ℚ)
    (outs : List (List ℚ)) (hids : List (List ℚ × List ℚ))
    (embs : List (List ℚ)) (gamma_expert : ℚ) :
    (moe_layer gateLS outs hids embs gamma_expert).1 =
      vsum (vsmul gamma_expert (weightedSum (moeWeights gateLS outs) outs))
           (vsmul (1 - gamma_expert) (outs.headD [])) ∧
    (moe_layer gateLS outs hids embs gamma_expert).2.1 =
      vsum (vsmul gamma_expert
              (weightedSum (moeWeights gateLS outs) (hids.map Prod.fst)))
           (vsmul (1 - gamma_expert) (hids.headD ([], [])).1) ∧
    (moe_layer gateLS outs hids embs gamma_expert).2.2 =
      vsum (vsmul gamma_expert
              (weightedSum (moeWeights gateLS outs) (hids.map Prod.snd)))
           (vsmul (1 - gamma_expert) (hids.headD ([], [])).2) :=
  ⟨rfl, rfl, rfl⟩

/-- Concrete `expert_forward` for the C8 counterexample: the output
distribution echoes the input token, so masked (PAD-filled) views are
distinguishable from unmasked ones. -/
def efC8 (input : Nat) (hidden : List ℚ × List ℚ) (enc : List ℚ) : EFOut :=
  ⟨[(input : ℚ)], ([0], [0]), [0]⟩

/-- Concrete gate for the C8 counterexample: equal log-softmax values for
chair and the two experts (weights 1/3 each after normalization). -/
def gateC8 (outs : List (List ℚ)) : List ℚ := [-1, -1, -1]

/-- C8 (counterexample): with γ = 1, two intents, and masks assigning the
batch element to intent A only (`[false, true]`), the `tokenMoE` output is
the gate-weighted mixture `[13/3]` of chair, expert A and the PAD-masked
expert B, which differs from expert A's standalone output `[5]` — the claim's
"equals the corresponding expert's standalone output" fails on the code. -/
theorem C8_gamma_one_counterexample :
    (tokenMoE efC8 gateC8 1 5 ([0], [0]) [0] [false, true]).1 = [13/3] ∧
    (efC8 5 ([0], [0]) [0]).output = [5] ∧
    (tokenMoE efC8 gateC8 1 5 ([0], [0]) [0] [false, true]).1 ≠
      (efC8 5 ([0], [0]) [0]).output := by
  refine ⟨?_, ?_, ?_⟩ <;> with_unfolding_all decide

/-! ## Priority-queue lemmas -/

theorem pqGet_none_iff {H : Type} (q : List (ℚ × BeamSearchNode H)) :
    pqGet q = none ↔ q = [] := by
  cases q with
  | nil => simp [pqGet]
  | cons x xs =>
    rw [pqGet]
    cases hxs : pqGet xs with
    | none => simp
    | some y =>
      obtain ⟨y, yrest⟩ := y
      dsimp
      by_cases hle : x.1 ≤ y.1 <;> simp [hle]

theorem pqGet_mem {H : Type} :
    ∀ (q : List (ℚ × BeamSearchNode H)) (p : ℚ × BeamSearchNode H)
      (rest : List (ℚ × BeamSearchNode H)), pqGet q = some (p, rest) → p ∈ q := by
  intro q
  induction q with
  | nil => intro p rest h; simp [pqGet] at h
  | cons x xs ih =>
    intro p rest h
    rw [pqGet] at h
    cases hxs : pqGet xs with
    | none =>
      rw [hxs] at h
      simp only [Option.some.injEq, Prod.mk.injEq] at h
      simp [h.1.symm]
    | some y =>
      obtain ⟨y, yrest⟩ := y
      rw [hxs] at h
      dsimp at h
      by_cases hle : x.1 ≤ y.1
      · rw [if_pos hle] at h
        simp only [Option.some.injEq, Prod.mk.injEq] at h
        simp [h.1.symm]
      · rw [if_neg hle] at h
        simp only [Option.some.injEq, Prod.mk.injEq] at h
        exact List.mem_cons_of_mem x (h.1 ▸ ih y yrest hxs)

theorem pqGet_min {H : Type} :
    ∀ (q : List (ℚ × BeamSearchNode H)) (p : ℚ × BeamSearchNode H)
      (rest : List (ℚ × BeamSearchNode H)), pqGet q = some (p, rest) →
      ∀ x ∈ q, p.1 ≤ x.1 := by
  intro q
  induction q with
  | nil => intro p rest h; simp [pqGet] at h
  | cons x xs ih =>
    intro p rest h
    rw [pqGet] at h
    cases hxs : pqGet xs with
    | none =>
      rw [hxs] at h
      simp only [Option.some.injEq, Prod.mk.injEq] at h
      have hxs' : xs = [] := (pqGet_none_iff xs).1 hxs
      subst hxs'
      intro z hz
      simp at hz
      simp [hz, h.1.symm]
    | some y =>
      obtain ⟨y, yrest⟩ := y
      rw [hxs] at h
      dsimp at h
      by_cases hle : x.1 ≤ y.1
      · rw [if_pos hle] at h
        simp only [Option.some.injEq, Prod.mk.injEq] at h
        obtain ⟨rfl, -⟩ := h
        intro z hz
        rcases List.mem_cons.1 hz with rfl | hz
        · exact le_refl _
        · exact le_trans hle (ih y yrest hxs z hz)
      · rw [if_neg hle] at h
        simp only [Option.some.injEq, Prod.mk.injEq] at h
        obtain ⟨rfl, -⟩ := h
        intro z hz
        rcases List.mem_cons.1 hz with rfl | hz
        · exact le_of_lt (lt_of_not_le hle)
        · exact ih y yrest hxs z hz

/-- Concrete node for the C9 witness. -/
def nodeA : BeamSearchNode Nat := .mk 0 none 4 (-3) 2

/-- Second concrete node for the C9 witness. -/
def nodeB : BeamSearchNode Nat := .mk 0 none 5 (-1) 2

/-- C9 (confirmed): the score pushed for a node by `Model.decode` is
`-logp / (leng - 1 + 1e-6)`; the repetition-penalty, token-reward and
score-table hooks (and the `alpha` argument) contribute exactly zero —
`eval` is independent of them; and the priority queue pops an entry of
minimal score first. -/
theorem C9_scoring (n : BeamSearchNode Nat)
    (repeatPenalty tokenReward scoreTable alphaArg : Option ℚ)
    (q : List (ℚ × BeamSearchNode Nat)) (p : ℚ × BeamSearchNode Nat)
    (rest : List (ℚ × BeamSearchNode Nat)) (hq : pqGet q = some (p, rest)) :
    n.eval repeatPenalty tokenReward scoreTable alphaArg =
      n.logp / ((n.leng : ℚ) - 1 + 1 / 1000000) ∧
    beamScore n = -(n.logp / ((n.leng : ℚ) - 1 + 1 / 1000000)) ∧
    p ∈ q ∧ ∀ x ∈ q, p.1 ≤ x.1 := by
  refine ⟨?_, ?_, pqGet_mem q p rest hq, pqGet_min q p rest hq⟩
  · simp [BeamSearchNode.eval]
  · simp [beamScore, BeamSearchNode.eval]

/-- Witness for `C9_scoring`: a concrete two-entry queue, whose minimal
score 1/2 is popped ahead of the score-3/2 entry. -/
theorem C9_scoring_witness :
    nodeA.eval (some 5) none (some 7) none =
      nodeA.logp / ((nodeA.leng : ℚ) - 1 + 1 / 1000000) ∧
    beamScore nodeA = -(nodeA.logp / ((nodeA.leng : ℚ) - 1 + 1 / 1000000)) ∧
    ((1 : ℚ)/2, nodeB) ∈ [((3 : ℚ)/2, nodeA), ((1 : ℚ)/2, nodeB)] ∧
    (1 : ℚ)/2 ≤ 3/2 := by
  have h := C9_scoring nodeA (some 5) none (some 7) none
    [((3 : ℚ)/2, nodeA), ((1 : ℚ)/2, nodeB)] ((1 : ℚ)/2, nodeB)
    [((3 : ℚ)/2, nodeA)] (by with_unfolding_all rfl)
  exact ⟨h.1, h.2.1, h.2.2.1, h.2.2.2 ((3 : ℚ)/2, nodeA) (by simp)⟩

/-! ## Store lemmas for the frame property -/

theorem length_maskedView (s : Store) (src : Nat) (m : Bool) :
    (maskedView s src m).1.length = s.length + 1 := by
  simp [maskedView, cloneT, maskedFillT, writeT]

theorem readT_maskedView (s : Store) (src : Nat) (m : Bool) (r : Nat)
    (hr : r < s.length) :
    readT (maskedView s src m).1 r = readT s r := by
  simp only [maskedView, cloneT, maskedFillT, writeT, readT]
  rw [List.getD_eq_getElem?_getD, List.getElem?_set_ne (by omega),
    ← List.getD_eq_getElem?_getD, List.getD_append _ _ _ _ hr]

theorem tokenMoEViews_frame (ri rh0 rh1 re : Nat) :
    ∀ (masks : List Bool) (s : Store) (r : Nat), r < s.length →
      readT (tokenMoEViews ri rh0 rh1 re masks s).1 r = readT s r := by
  intro masks
  induction masks with
  | nil => intro s r hr; simp [tokenMoEViews]
  | cons mask masks ih =>
    intro s r hr
    rw [tokenMoEViews]
    have h1 := readT_maskedView s ri mask r hr
    have l1 := length_maskedView s ri mask
    have h2 := readT_maskedView (maskedView s ri mask).1 rh0 mask r (by omega)
    have l2 := length_maskedView (maskedView s ri mask).1 rh0 mask
    have h3 := readT_maskedView (maskedView (maskedView s ri mask).1 rh0 mask).1
      rh1 mask r (by omega)
    have l3 := length_maskedView (maskedView (maskedView s ri mask).1 rh0 mask).1
      rh1 mask
    have h4 := readT_maskedView
      (maskedView (maskedView (maskedView s ri mask).1 rh0 mask).1 rh1 mask).1
      re mask r (by omega)
    have l4 := length_maskedView
      (maskedView (maskedView (maskedView s ri mask).1 rh0 mask).1 rh1 mask).1
      re mask
    rw [ih _ r (by omega), h4, h3, h2, h1]

/-- C10 (confirmed): the view-building loop of `tokenMoE` never mutates the
caller's tensors.  Every masked view is built by `clone()` followed by an
in-place `masked_fill_` on the fresh clone, so after processing any list of
intent masks every tensor that existed in the store before the call — in
particular the caller's decoder input `ri`, hidden components `rh0`, `rh1`,
and the shared encoder outputs `re` — still holds its original value. -/
theorem C10_tokenMoE_frame (s : Store) (ri rh0 rh1 re : Nat)
    (masks : List Bool)
    (hri : ri < s.length) (hrh0 : rh0 < s.length) (hrh1 : rh1 < s.length)
    (hre : re < s.length) :
    readT (tokenMoEViews ri rh0 rh1 re masks s).1 ri = readT s ri ∧
    readT (tokenMoEViews ri rh0 rh1 re masks s).1 rh0 = readT s rh0 ∧
    readT (tokenMoEViews ri rh0 rh1 re masks s).1 rh1 = readT s rh1 ∧
    readT (tokenMoEViews ri rh0 rh1 re masks s).1 re = readT s re :=
  ⟨tokenMoEViews_frame ri rh0 rh1 re masks s ri hri,
   tokenMoEViews_frame ri rh0 rh1 re masks s rh0 hrh0,
   tokenMoEViews_frame ri rh0 rh1 re masks s rh1 hrh1,
   tokenMoEViews_frame ri rh0 rh1 re masks s re hre⟩

/-- Witness for `C10_tokenMoE_frame` on a concrete four-tensor store and two
intent masks. -/
theorem C10_tokenMoE_frame_witness :
    readT (tokenMoEViews 0 1 2 3 [true, false] [[1], [2], [3], [4]]).1 0 =
      readT [[1], [2], [3], [4]] 0 ∧
    readT (tokenMoEViews 0 1 2 3 [true, false] [[1], [2], [3], [4]]).1 1 =
      readT [[1], [2], [3], [4]] 1 ∧
    readT (tokenMoEViews 0 1 2 3 [true, false] [[1], [2], [3], [4]]).1 2 =
      readT [[1], [2], [3], [4]] 2 ∧
    readT (tokenMoEViews 0 1 2 3 [true, false] [[1], [2], [3], [4]]).1 3 =
      readT [[1], [2], [3], [4]] 3 :=
  C10_tokenMoE_frame [[1], [2], [3], [4]] 0 1 2 3 [true, false]
    (by decide) (by decide) (by decide) (by decide)

/-! ## Beam-loop lemmas -/

theorem length_topk (k : Nat) (xs : List ℚ) :
    (topk k xs).length = min k xs.length := by
  simp [topk, List.length_insertionSort]

theorem topk_ne_nil (k : Nat) (xs : List ℚ) (hk : 1 ≤ k) (hxs : xs ≠ []) :
    topk k xs ≠ [] := by
  intro h
  have hlen := length_topk k xs
  rw [h] at hlen
  have hx : xs.length ≠ 0 := fun h0 => hxs (List.length_eq_zero.1 h0)
  simp only [List.length_nil] at hlen
  omega

theorem beamExpand_ne_nil {H : Type} (step : Nat → H → H × List ℚ)
    (width : Nat) (n : BeamSearchNode H) (hw : 1 ≤ width)
    (hv : (step n.wordid n.h).2 ≠ []) : beamExpand step width n ≠ [] := by
  have := topk_ne_nil width (step n.wordid n.h).2 hw hv
  simp [beamExpand, this]

theorem backtraceTokens_ne_nil {H : Type} (n : BeamSearchNode H) :
    backtraceTokens n ≠ [] := by
  cases n with
  | mk h p w l g =>
    cases p with
    | none => simp [backtraceTokens]
    | some q => simp [backtraceTokens]

theorem pqGet_rest_subset {H : Type} :
    ∀ (q : List (ℚ × BeamSearchNode H)) (p : ℚ × BeamSearchNode H)
      (rest : List (ℚ × BeamSearchNode H)), pqGet q = some (p, rest) →
      ∀ x ∈ rest, x ∈ q := by
  intro q
  induction q with
  | nil => intro p rest h; simp [pqGet] at h
  | cons x xs ih =>
    intro p rest h
    rw [pqGet] at h
    cases hxs : pqGet xs with
    | none =>
      rw [hxs] at h
      simp only [Option.some.injEq, Prod.mk.injEq] at h
      rw [← h.2]
      simp
    | some y =>
      obtain ⟨y, yrest⟩ := y
      rw [hxs] at h
      dsimp at h
      by_cases hle : x.1 ≤ y.1
      · rw [if_pos hle] at h
        simp only [Option.some.injEq, Prod.mk.injEq] at h
        rw [← h.2]
        intro z hz
        exact List.mem_cons_of_mem x hz
      · rw [if_neg hle] at h
        simp only [Option.some.injEq, Prod.mk.injEq] at h
        rw [← h.2]
        intro z hz
        rcases List.mem_cons.1 hz with rfl | hz
        · simp
        · exact List.mem_cons_of_mem x (ih y yrest hxs z hz)

/-- The beam loop always terminates (returns `some` rather than running out
of fuel or blocking on an empty queue) as long as the queue is nonempty, the
beam width is positive, the decoder emits a nonempty distribution, and the
fuel plus the current `qsize` covers the 2000-node cap. -/
theorem beamLoop_isSome {H : Type} (step : Nat → H → H × List ℚ)
    (width : Nat) (hw : 1 ≤ width) (hv : ∀ t h, (step t h).2 ≠ []) :
    ∀ (fuel : Nat) (nodes endnodes : List (ℚ × BeamSearchNode H)) (qsize : Nat),
      nodes ≠ [] → 2002 ≤ fuel + qsize →
      (beamLoop step width fuel nodes endnodes qsize).isSome = true := by
  intro fuel
  induction fuel with
  | zero =>
    intro nodes endnodes qsize hn hq
    have hcap : 2000 < qsize := by omega
    rw [beamLoop]
    simp [hcap]
  | succ fuel ih =>
    intro nodes endnodes qsize hn hq
    rw [beamLoop]
    by_cases hcap : 2000 < qsize
    · simp [hcap]
    · rw [if_neg hcap]
      cases hget : pqGet nodes with
      | none => exact absurd ((pqGet_none_iff nodes).1 hget) hn
      | some pr =>
        obtain ⟨⟨score, n⟩, rest⟩ := pr
        dsimp
        by_cases heos : n.wordid = EOS_token ∧ n.prevNode.isSome = true
        · rw [if_pos heos]
          have hreq : number_required ≤ (endnodes ++ [(score, n)]).length := by
            simp [number_required, beam_topk]
          rw [if_pos hreq]
          rfl
        · rw [if_neg heos]
          have hne : beamExpand step width n ≠ [] :=
            beamExpand_ne_nil step width n hw (hv _ _)
          have hlen : 1 ≤ (beamExpand step width n).length :=
            Nat.one_le_iff_ne_zero.2 fun h0 => hne (List.length_eq_zero.1 h0)
          apply ih
          · simp [hne]
          · omega

/-- Concrete decoder step for the C4 counterexample: the hidden state counts
steps; `EOS_token` always ranks first, token 4 second. -/
def stepC4 : Nat → Nat → Nat × List ℚ :=
  fun _ k => (k + 1, [-10, 0, -10, -10, -5])

/-- The completed node of the C4 run: child of the start node via
`EOS_token`. -/
def nodeC4eos : BeamSearchNode Nat := .mk 1 (some (initNode 0)) 1 (0 + 0) 2

/-- The still-queued alternative node of the C4 run (token 4). -/
def nodeC4alt : BeamSearchNode Nat := .mk 1 (some (initNode 0)) 4 (0 + -5) 2

/-- C4 (counterexample): the engine stops after a single completed
hypothesis even though the queue still holds a live alternative.  With beam
width 2 and a decoder that always ranks `EOS_token` first, the loop exits
with `endnodes` of length exactly 1 while one unexpanded node remains on the
queue (which could still complete) — and there is no configuration input
that could raise the required count: `number_required` is the constant
`min(topk + 1, topk) = 1` with `topk` hardcoded to 1, so the claim's "for
every configured count ≥ 1" fails. -/
theorem C4_required_count_counterexample :
    (beamLoop stepC4 2 beamFuel (initQueue 0) [] 1).map
      (fun r => (r.1.length, r.2.1.length, r.2.2)) = some (1, 1, 3) ∧
    number_required = 1 := by
  constructor
  · with_unfolding_all decide
  · rfl

/-- C4 (amended): beam search stops expanding as soon as the number of
completed hypotheses reaches `number_required`, but that count is the fixed
constant 1 (`self.topk = 1` is hardcoded in `Model.decode`), not a
configuration option: every exit of the loop started with no completed
hypotheses carries at most one end node, and exactly one whenever the exit
was not forced by the 2000-node cap. -/
theorem C4_required_count_is_one {H : Type} (step : Nat → H → H × List ℚ)
    (width : Nat) :
    ∀ (fuel : Nat) (nodes : List (ℚ × BeamSearchNode H)) (qsize : Nat)
      (e q : List (ℚ × BeamSearchNode H)) (s : Nat),
      beamLoop step width fuel nodes [] qsize = some (e, q, s) →
      number_required = 1 ∧ e.length ≤ 1 ∧ (s ≤ 2000 → e.length = 1) := by
  intro fuel
  induction fuel with
  | zero =>
    intro nodes qsize e q s h
    rw [beamLoop] at h
    by_cases hcap : 2000 < qsize
    · rw [if_pos hcap] at h
      simp only [Option.some.injEq, Prod.mk.injEq] at h
      obtain ⟨rfl, -, rfl⟩ := h
      exact ⟨rfl, by simp, by omega⟩
    · rw [if_neg hcap] at h
      exact absurd h (by simp)
  | succ fuel ih =>
    intro nodes qsize e q s h
    rw [beamLoop] at h
    by_cases hcap : 2000 < qsize
    · rw [if_pos hcap] at h
      simp only [Option.some.injEq, Prod.mk.injEq] at h
      obtain ⟨rfl, -, rfl⟩ := h
      exact ⟨rfl, by simp, by omega⟩
    · rw [if_neg hcap] at h
      cases hget : pqGet nodes with
      | none => rw [hget] at h; exact absurd h (by simp)
      | some pr =>
        obtain ⟨⟨score, n⟩, rest⟩ := pr
        rw [hget] at h
        dsimp at h
        by_cases heos : n.wordid = EOS_token ∧ n.prevNode.isSome = true
        · rw [if_pos heos] at h
          have hreq : number_required ≤ 1 := by
            simp [number_required, beam_topk]
          rw [if_pos hreq] at h
          simp only [Option.some.injEq, Prod.mk.injEq] at h
          obtain ⟨rfl, -, rfl⟩ := h
          exact ⟨rfl, by simp, fun _ => by simp⟩
        · rw [if_neg heos] at h
          exact ih _ _ _ _ _ h

/-- Witness for `C4_required_count_is_one` on the concrete beam run of the
counterexample configuration. -/
theorem C4_required_count_is_one_witness :
    number_required = 1 ∧
    [(beamScore nodeC4eos, nodeC4eos)].length ≤ 1 ∧
    ((3 : Nat) ≤ 2000 → [(beamScore nodeC4eos, nodeC4eos)].length = 1) :=
  C4_required_count_is_one stepC4 2 beamFuel (initQueue 0) 1
    [(beamScore nodeC4eos, nodeC4eos)] [(beamScore nodeC4alt, nodeC4alt)] 3
    (by with_unfolding_all rfl)

/-- If the decoder never places `EOS_token` among the top `width` tokens,
the loop (started with no completed hypotheses and a queue free of
completable nodes) exits through the 2000-node safety cap: no end nodes, a
nonempty remaining queue, and a node count beyond 2000. -/
theorem beamLoop_cap {H : Type} (step : Nat → H → H × List ℚ) (width : Nat)
    (hw : 1 ≤ width) (hv : ∀ t h, (step t h).2 ≠ [])
    (hpath : ∀ t h p, p ∈ topk width (step t h).2 → p.1 ≠ EOS_token) :
    ∀ (fuel : Nat) (nodes : List (ℚ × BeamSearchNode H)) (qsize : Nat),
      nodes ≠ [] → 2002 ≤ fuel + qsize →
      (∀ p ∈ nodes, ¬(p.2.wordid = EOS_token ∧ p.2.prevNode.isSome = true)) →
      ∃ q s, beamLoop step width fuel nodes [] qsize = some ([], q, s) ∧
        q ≠ [] ∧ 2000 < s := by
  intro fuel
  induction fuel with
  | zero =>
    intro nodes qsize hn hq hinv
    have hcap : 2000 < qsize := by omega
    refine ⟨nodes, qsize, ?_, hn, hcap⟩
    rw [beamLoop, if_pos hcap]
  | succ fuel ih =>
    intro nodes qsize hn hq hinv
    by_cases hcap : 2000 < qsize
    · refine ⟨nodes, qsize, ?_, hn, hcap⟩
      rw [beamLoop, if_pos hcap]
    · rw [beamLoop, if_neg hcap]
      cases hget : pqGet nodes with
      | none => exact absurd ((pqGet_none_iff nodes).1 hget) hn
      | some pr =>
        obtain ⟨⟨score, n⟩, rest⟩ := pr
        dsimp only
        have heos : ¬(n.wordid = EOS_token ∧ n.prevNode.isSome = true) :=
          hinv _ (pqGet_mem nodes _ _ hget)
        rw [if_neg heos]
        have hexp : beamExpand step width n ≠ [] :=
          beamExpand_ne_nil step width n hw (hv _ _)
        have hlen : 1 ≤ (beamExpand step width n).length :=
          Nat.one_le_iff_ne_zero.2 fun h0 => hexp (List.length_eq_zero.1 h0)
        apply ih
        · simp [hexp]
        · omega
        · intro p hp
          rcases List.mem_append.1 hp with hp | hp
          · exact hinv p (pqGet_rest_subset nodes _ _ hget p hp)
          · rcases List.mem_map.1 hp with ⟨tv, htv, rfl⟩
            intro hcon
            exact hpath _ _ tv htv (by simpa [BeamSearchNode.wordid] using hcon.1)

/-- C5 (confirmed): for every decoder step function (emitting a nonempty
distribution) and beam width ≥ 1, the beam engine for one turn terminates
(the loop yields a result, it neither loops nor blocks nor raises in the
model); and for a pathological step that never ranks `EOS_token` among the
top `width` tokens, it halts through the 2000-node safety cap (`qsize`
strictly beyond 2000) with zero completed hypotheses, and the decode still
returns a non-empty best-effort utterance by popping a remaining queue
node. -/
theorem C5_termination_and_cap {H : Type} (step : Nat → H → H × List ℚ)
    (width : Nat) (h0 : H) (hw : 1 ≤ width)
    (hv : ∀ t h, (step t h).2 ≠ []) :
    (beamLoop step width beamFuel (initQueue h0) [] 1).isSome = true ∧
    ((∀ t h p, p ∈ topk width (step t h).2 → p.1 ≠ EOS_token) →
      ∃ u, beamDecodeTokens step width h0 = some u ∧ u ≠ [] ∧
        ∃ q s, beamLoop step width beamFuel (initQueue h0) [] 1 =
          some ([], q, s) ∧ 2000 < s) := by
  constructor
  · exact beamLoop_isSome step width hw hv beamFuel (initQueue h0) [] 1
      (by simp [initQueue]) (by simp [beamFuel])
  · intro hpath
    have hinv : ∀ p ∈ initQueue h0,
        ¬(p.2.wordid = EOS_token ∧ p.2.prevNode.isSome = true) := by
      intro p hp
      simp only [initQueue, List.mem_singleton] at hp
      subst hp
      simp [initNode, BeamSearchNode.wordid, BeamSearchNode.prevNode,
        SOS_token, EOS_token]
    obtain ⟨q, s, hloop, hqne, hs⟩ := beamLoop_cap step width hw hv hpath
      beamFuel (initQueue h0) 1 (by simp [initQueue]) (by simp [beamFuel]) hinv
    cases hget : pqGet q with
    | none => exact absurd ((pqGet_none_iff q).1 hget) hqne
    | some pr =>
      obtain ⟨p, prest⟩ := pr
      refine ⟨backtraceTokens p.2, ?_, backtraceTokens_ne_nil _, q, s, hloop, hs⟩
      rw [beamDecodeTokens, hloop]
      simp [hget]

/-- The pathological decoder step of the C5 witness: `EOS_token` never
appears among the top tokens (token 0 ranks first, token 4 second). -/
def stepC5 : Nat → Nat → Nat × List ℚ :=
  fun _ k => (k + 1, [0, -10, -9, -8, -7])

/-- Witness for `C5_termination_and_cap`: the pathological run with beam
width 2 terminates with a non-empty best-effort utterance. -/
theorem C5_termination_and_cap_witness :
    (beamDecodeTokens stepC5 2 (0 : Nat)).isSome = true ∧
    (beamDecodeTokens stepC5 2 (0 : Nat)).getD [] ≠ [] := by
  have hpath : ∀ (t h : Nat) (p : Nat × ℚ),
      p ∈ topk 2 (stepC5 t h).2 → p.1 ≠ EOS_token := by
    intro t h p hp
    have he : topk 2 (stepC5 t h).2 = [(0, 0), (4, -7)] := by
      with_unfolding_all rfl
    rw [he] at hp
    rcases List.mem_cons.1 hp with rfl | hp
    · decide
    · rcases List.mem_cons.1 hp with rfl | hp
      · decide
      · simp at hp
  obtain ⟨u, hu, hune, -⟩ :=
    (C5_termination_and_cap stepC5 2 0 (by decide)
      (fun t h => by simp [stepC5])).2 hpath
  rw [hu]
  exact ⟨rfl, by simpa using hune⟩

/-! ## Beam width 1 versus greedy decoding -/

theorem pqGet_singleton {H : Type} (x : ℚ × BeamSearchNode H) :
    pqGet [x] = some (x, []) := rfl

theorem topk_one_eq (xs : List ℚ) (hxs : xs ≠ []) : ∃ a, topk 1 xs = [a] := by
  have hlen := length_topk 1 xs
  have hx : xs.length ≠ 0 := fun h0 => hxs (List.length_eq_zero.1 h0)
  cases ht : topk 1 xs with
  | nil =>
    rw [ht] at hlen
    simp only [List.length_nil] at hlen
    omega
  | cons a l =>
    rw [ht] at hlen
    simp only [List.length_cons] at hlen
    have hl : l.length = 0 := by omega
    exact ⟨a, by rw [List.length_eq_zero.1 hl]⟩

/-- With beam width 1, an expansion pushes exactly one child: the arg-max
token of the decoder distribution, the same token the greedy step picks. -/
theorem beamExpand_width_one {H : Type} (step : Nat → H → H × List ℚ)
    (n : BeamSearchNode H) (hv : (step n.wordid n.h).2 ≠ []) :
    ∃ a : Nat × ℚ, topk 1 (step n.wordid n.h).2 = [a] ∧
      beamExpand step 1 n =
        [(beamScore (BeamSearchNode.mk (step n.wordid n.h).1 (some n) a.1
            (n.logp + a.2) (n.leng + 1)),
          BeamSearchNode.mk (step n.wordid n.h).1 (some n) a.1
            (n.logp + a.2) (n.leng + 1))] ∧
      greedyStep step n.wordid n.h = (a.1, (step n.wordid n.h).1) := by
  obtain ⟨a, ha⟩ := topk_one_eq _ hv
  refine ⟨a, ha, ?_, ?_⟩
  · simp [beamExpand, ha]
  · simp [greedyStep, ha]

/-- The width-1 beam loop follows the greedy token trace: if the greedy
continuation of a node's token and hidden state reads `pre ++ EOS :: rest`
with no end-of-sequence token inside `pre`, and fuel and the 2000-node cap
leave room for `pre`, the loop completes exactly one hypothesis whose
backtrace extends the node's backtrace by `pre ++ [EOS_token]`. -/
theorem beamLoop_width_one {H : Type} (step : Nat → H → H × List ℚ)
    (hv : ∀ t h, (step t h).2 ≠ []) :
    ∀ (pre rest : List Nat) (gfuel : Nat) (n : BeamSearchNode H) (s : ℚ)
      (bfuel qsize : Nat),
      greedyTokens step gfuel n.wordid n.h = pre ++ EOS_token :: rest →
      EOS_token ∉ pre →
      ¬(n.wordid = EOS_token ∧ n.prevNode.isSome = true) →
      pre.length + 2 ≤ bfuel →
      qsize + pre.length + 1 ≤ 2000 →
      ∃ s2 n2 qs2,
        beamLoop step 1 bfuel [(s, n)] [] qsize = some ([(s2, n2)], [], qs2) ∧
        backtraceTokens n2 = backtraceTokens n ++ (pre ++ [EOS_token]) := by
  intro pre
  induction pre with
  | nil =>
    intro rest gfuel n s bfuel qsize hg hpre hne hbf hq
    cases gfuel with
    | zero => simp [greedyTokens] at hg
    | succ g =>
      rw [greedyTokens] at hg
      simp only [List.nil_append, List.cons.injEq] at hg
      obtain ⟨a, ha, haexp, hagreedy⟩ := beamExpand_width_one step n (hv _ _)
      set nd := BeamSearchNode.mk (step n.wordid n.h).1 (some n) a.1
        (n.logp + a.2) (n.leng + 1) with hnd
      have haeos : a.1 = EOS_token := by
        have h1 := hg.1
        rw [hagreedy] at h1
        exact h1
      obtain ⟨b, rfl⟩ : ∃ b, bfuel = b + 1 := ⟨bfuel - 1, by omega⟩
      have hcap : ¬ 2000 < qsize := by omega
      rw [beamLoop, if_neg hcap, pqGet_singleton]
      dsimp only
      rw [if_neg hne, haexp, List.nil_append, List.length_singleton]
      obtain ⟨b', rfl⟩ : ∃ b', b = b' + 1 := ⟨b - 1, by omega⟩
      have hcap2 : ¬ 2000 < qsize + 1 := by omega
      rw [beamLoop, if_neg hcap2, pqGet_singleton]
      dsimp only
      have heos : nd.wordid = EOS_token ∧ nd.prevNode.isSome = true := by
        simp [hnd, BeamSearchNode.wordid, BeamSearchNode.prevNode, haeos]
      rw [if_pos heos]
      have hreq : number_required ≤ (([] : List (ℚ × BeamSearchNode H)) ++
          [(beamScore nd, nd)]).length := by
        simp [number_required, beam_topk]
      rw [if_pos hreq]
      refine ⟨beamScore nd, nd, qsize + 1, by rw [List.nil_append], ?_⟩
      simp [hnd, backtraceTokens, haeos]
  | cons t pre' ih =>
    intro rest gfuel n s bfuel qsize hg hpre hne hbf hq
    cases gfuel with
    | zero => simp [greedyTokens] at hg
    | succ g =>
      rw [greedyTokens] at hg
      simp only [List.cons_append, List.cons.injEq] at hg
      obtain ⟨a, ha, haexp, hagreedy⟩ := beamExpand_width_one step n (hv _ _)
      set nd := BeamSearchNode.mk (step n.wordid n.h).1 (some n) a.1
        (n.logp + a.2) (n.leng + 1) with hnd
      have hat : a.1 = t := by
        have h1 := hg.1
        rw [hagreedy] at h1
        exact h1
      have htne : ¬ t = EOS_token := by
        intro hcon
        exact hpre (by simp [hcon])
      have htail : greedyTokens step g nd.wordid nd.h =
          pre' ++ EOS_token :: rest := by
        have h2 := hg.2
        rw [hagreedy] at h2
        simpa [hnd, BeamSearchNode.wordid, BeamSearchNode.h] using h2
      have hne' : ¬ (nd.wordid = EOS_token ∧ nd.prevNode.isSome = true) := by
        intro hcon
        apply htne
        rw [← hat]
        simpa [hnd, BeamSearchNode.wordid] using hcon.1
      obtain ⟨b, rfl⟩ : ∃ b, bfuel = b + 1 := ⟨bfuel - 1, by omega⟩
      have hcap : ¬ 2000 < qsize := by
        simp only [List.length_cons] at hq
        omega
      rw [beamLoop, if_neg hcap, pqGet_singleton]
      dsimp only
      rw [if_neg hne, haexp, List.nil_append, List.length_singleton]
      have hpre' : EOS_token ∉ pre' := fun hcon => hpre (by simp [hcon])
      obtain ⟨s2, n2, qs2, hloop, hbt⟩ := ih rest g nd (beamScore nd) b
        (qsize + 1) htail hpre' hne'
        (by simp only [List.length_cons] at hbf; omega)
        (by simp only [List.length_cons] at hq; omega)
      refine ⟨s2, n2, qs2, hloop, ?_⟩
      rw [hbt]
      have hnd_bt : backtraceTokens nd = backtraceTokens n ++ [t] := by
        simp [hnd, backtraceTokens, hat]
      rw [hnd_bt]
      simp

theorem takeWhile_append_stop (a : Nat) :
    ∀ (l1 l2 : List Nat), (∀ x ∈ l1, x ≠ a) →
      (l1 ++ a :: l2).takeWhile (fun t => ¬ t = a) = l1 := by
  intro l1
  induction l1 with
  | nil => intro l2 h; simp
  | cons x xs ih =>
    intro l2 h
    have hx : x ≠ a := h x (by simp)
    have ih' := ih l2 (fun y hy => h y (List.mem_cons_of_mem _ hy))
    simp only [List.cons_append, List.takeWhile_cons]
    simp only [decide_not] at ih' ⊢
    simp [hx, ih']

/-- C1 (amended): with beam width 1 the beam-search path of `decode` emits,
per batch element, exactly the greedy token sequence — *provided* the greedy
arg-max trace reaches `EOS_token` within `max_len` steps (and within the
2000-node cap, `pre.length ≤ 1998`); both paths take the same arg-max with
the same fixed tie-break (lowest token id among equal log-probabilities).
Without that proviso the two differ: greedy truncates at `max_len` steps
while beam search continues to `EOS` or the cap. -/
theorem C1_beam1_matches_greedy {H : Type} (step : Nat → H → H × List ℚ)
    (max_len : Nat) (h0 : H) (hv : ∀ t h, (step t h).2 ≠ [])
    (pre rest : List Nat)
    (hg : greedyDecodeTokens step max_len h0 = pre ++ EOS_token :: rest)
    (hpre : EOS_token ∉ pre) (hcap : pre.length ≤ 1998) :
    beamDecodeSentence step 1 h0 = some (greedySentence step max_len h0) ∧
    greedySentence step max_len h0 = pre := by
  have hgs : greedySentence step max_len h0 = pre := by
    rw [greedySentence, hg]
    exact takeWhile_append_stop EOS_token pre rest
      (fun x hx hcon => hpre (hcon ▸ hx))
  refine ⟨?_, hgs⟩
  have hg0 : greedyTokens step max_len (initNode h0).wordid (initNode h0).h =
      pre ++ EOS_token :: rest := by
    simpa [greedyDecodeTokens, initNode, BeamSearchNode.wordid,
      BeamSearchNode.h] using hg
  have hne : ¬ ((initNode h0).wordid = EOS_token ∧
      (initNode h0).prevNode.isSome = true) := by
    simp [initNode, BeamSearchNode.wordid, BeamSearchNode.prevNode,
      SOS_token, EOS_token]
  obtain ⟨s2, n2, qs2, hloop, hbt⟩ := beamLoop_width_one step hv pre rest
    max_len (initNode h0) (beamScore (initNode h0)) beamFuel 1 hg0 hpre hne
    (by simp only [beamFuel]; omega) (by omega)
  have hbd : beamDecodeTokens step 1 h0 =
      some (SOS_token :: (pre ++ [EOS_token])) := by
    rw [beamDecodeTokens]
    simp only [initQueue]
    rw [hloop]
    dsimp only
    rw [if_neg (by simp), pqGet_singleton]
    dsimp only
    rw [hbt]
    simp [initNode, backtraceTokens]
  rw [beamDecodeSentence, hbd, hgs]
  simp [List.dropLast_concat]

/-- Concrete decoder step for the C1 witness: the hidden state counts steps;
token 4 ranks first for the first two steps, then `EOS_token` does. -/
def stepC1w : Nat → Nat → Nat × List ℚ :=
  fun _ k => (k + 1,
    [-10, if k < 2 then -10 else 0, -10, -10, if k < 2 then 0 else -10])

/-- Witness for `C1_beam1_matches_greedy`: greedy reaches `EOS_token` at
step 3 of 5, and the width-1 beam decode emits the same sentence `[4, 4]`. -/
theorem C1_beam1_matches_greedy_witness :
    beamDecodeSentence stepC1w 1 (0 : Nat) =
      some (greedySentence stepC1w 5 0) ∧
    greedySentence stepC1w 5 0 = [4, 4] :=
  C1_beam1_matches_greedy stepC1w 5 0 (fun t h => by simp [stepC1w])
    [4, 4] [1, 1] (by with_unfolding_all decide) (by decide) (by decide)

/-- Concrete decoder step for the C1 counterexample: token 4 ranks first for
the first three steps, then `EOS_token` does — so greedy with `max_len = 2`
stops before end-of-sequence is reached. -/
def stepC1x : Nat → Nat → Nat × List ℚ :=
  fun _ k => (k + 1,
    if k < 3 then [-10, -10, -10, -10, 0] else [-10, 0, -10, -10, -10])

/-- C1 (counterexample): the claim as stated — beam width 1 always yields the
greedy sequence — fails when greedy's `max_len` step budget (here 2) runs out
before `EOS_token`: the greedy path emits `[4, 4]` while the width-1 beam
path keeps decoding to `EOS` and emits `[4, 4, 4]`. -/
theorem C1_beam1_greedy_counterexample :
    beamDecodeSentence stepC1x 1 (0 : Nat) = some [4, 4, 4] ∧
    greedySentence stepC1x 2 (0 : Nat) = [4, 4] ∧
    beamDecodeSentence stepC1x 1 (0 : Nat) ≠
      some (greedySentence stepC1x 2 0) := by
  refine ⟨?_, ?_, ?_⟩ <;> with_unfolding_all decide

end MDRG
